import Mathlib

/-!
Verification of the cascade-prediction core: cascade data model, event
deduplication, k-prefix truncation, tree building, BFS depth computation,
structural metrics, temporal features and label construction.

Python dictionaries are modelled as insertion-ordered association lists
(updates keep the position of an existing key, fresh keys are appended),
Python sets of child ids as duplicate-free lists, Python floats as exact
rationals, and Python ints as `Int`.  Fallible operations (a dictionary
subscript that can raise `KeyError`, a search loop bounded by fuel) return
`Option`.
-/

/-- Model of `cascade.Event`: one retweet event. -/
structure Event where
  user : Int
  parent : Int
  time : Rat
deriving DecidableEq, Repr

/-- Model of `cascade.Cascade`: id, root user, publish time and event list. -/
structure Cascade where
  cid : Int
  root : Int
  publish_time : Rat
  events : List Event
deriving DecidableEq, Repr

/-- Lookup in an association list, mirroring a Python dict subscript:
the first entry with the given key wins (keys are unique in a real dict). -/
def alistGet {α : Type} : List (Int × α) → Int → Option α
  | [], _ => none
  | (k', v') :: rest, k => if k' = k then some v' else alistGet rest k

/-- Update in an association list, mirroring a Python dict assignment:
an existing key keeps its position, a fresh key is appended at the end. -/
def alistSet {α : Type} : List (Int × α) → Int → α → List (Int × α)
  | [], k, v => [(k, v)]
  | (k', v') :: rest, k, v =>
      if k' = k then (k, v) :: rest else (k', v') :: alistSet rest k v

/-- Apply a function to the value stored at a key (first occurrence),
leaving the list unchanged when the key is absent. -/
def alistModify {α : Type} : List (Int × α) → Int → (α → α) → List (Int × α)
  | [], _, _ => []
  | (k', v') :: rest, k, f =>
      if k' = k then (k', f v') :: rest else (k', v') :: alistModify rest k f

/-- Mirror of Python `dict.setdefault`: insert the default only when the key
is absent. -/
def setdefault {α : Type} (m : List (Int × α)) (k : Int) (v : α) : List (Int × α) :=
  match alistGet m k with
  | some _ => m
  | none => m ++ [(k, v)]

/-- Keys of an association list, in order. -/
def keysOf {α : Type} (m : List (Int × α)) : List Int := m.map Prod.fst

/-- Adjacency structure of `build_tree.py`: dict from node to set of children
(the child set is modelled as a duplicate-free list). -/
abbrev Adj := List (Int × List Int)

/-- Child set of a node, mirroring `adj.get(node, set())`. -/
def childrenOf (adj : Adj) (u : Int) : List Int := (alistGet adj u).getD []

/-- Mirror of Python `set.add` on the list model: no-op when already present,
append otherwise. -/
def setAdd (s : List Int) (u : Int) : List Int := if u ∈ s then s else s ++ [u]

/-- Boolean time comparison used as the sort key (`key=lambda e: e.time`). -/
def timeLE (a b : Event) : Bool := decide (a.time ≤ b.time)

/-- Model of `Cascade.sort_events`: stable in-place sort of the events by
ascending time.  The mutated cascade is returned as a value. -/
def sortEvents (c : Cascade) : Cascade :=
  { c with events := c.events.mergeSort timeLE }

/-- Model of a Python slice `l[:k]` for an arbitrary integer `k`:
a negative bound counts from the end of the list (clamped at zero). -/
def pySliceTo {α : Type} (l : List α) (k : Int) : List α :=
  if k < 0 then l.take ((l.length : Int) + k).toNat else l.take k.toNat

/-- Model of `Cascade.get_k_prefix`: the call first sorts the events of the
receiver in place, so the (possibly mutated) receiver is returned alongside
the optional truncated cascade. -/
def getKPrefix (c : Cascade) (k : Int) : Cascade × Option Cascade :=
  let c' := sortEvents c
  if (c'.events.length : Int) < k then (c', none)
  else
    (c', some { cid := c.cid, root := c.root, publish_time := c.publish_time,
                events := pySliceTo c'.events k })

/-- Loop body of `earliest_event_by_user`: fold the events into the
`by_user` dict, replacing an entry only on strictly smaller time. -/
def dedupLoop : List Event → List (Int × Event) → List (Int × Event)
  | [], m => m
  | ev :: rest, m =>
      match alistGet m ev.user with
      | none => dedupLoop rest (alistSet m ev.user ev)
      | some old =>
          if ev.time < old.time then dedupLoop rest (alistSet m ev.user ev)
          else dedupLoop rest m

/-- Model of `cascade.earliest_event_by_user`: keep, for each user, the
earliest event, in user first-appearance order (`list(by_user.values())`). -/
def earliest_event_by_user (events : List Event) : List Event :=
  (dedupLoop events []).map Prod.snd

/-- Model of `build_tree.build_tree`: ensure the root key, then for each event
ensure both endpoints exist as keys and add the child edge. -/
def buildLoop : List Event → Adj → Adj
  | [], adj => adj
  | e :: rest, adj =>
      let adj1 := setdefault adj e.parent []
      let adj2 := setdefault adj1 e.user []
      buildLoop rest (alistModify adj2 e.parent (fun s => setAdd s e.user))

/-- Model of `build_tree.build_tree` (entry point). -/
def build_tree (c : Cascade) : Adj :=
  buildLoop c.events (setdefault [] c.root [])

/-- Relaxation pass over the children of the dequeued node in
`compute_depths`.  Both dict subscripts `depths[child]` and
`depths[current]` can raise `KeyError`, hence the `Option`. -/
def relaxChildren (current : Int) :
    List Int → List (Int × Int) → List Int → Option (List (Int × Int) × List Int)
  | [], depths, queue => some (depths, queue)
  | child :: cs, depths, queue =>
      match alistGet depths child, alistGet depths current with
      | some dc, some dcur =>
          if dc = -1 ∨ dcur + 1 < dc then
            relaxChildren current cs (alistSet depths child (dcur + 1)) (queue ++ [child])
          else relaxChildren current cs depths queue
      | _, _ => none

/-- Fueled while-loop of `compute_depths`: pop the front of the queue and
relax its children.  Returns `none` when the fuel runs out or a dict
subscript fails. -/
def bfsLoop (adj : Adj) : Nat → List (Int × Int) → List Int → Option (List (Int × Int))
  | _, depths, [] => some depths
  | 0, _, _ :: _ => none
  | fuel + 1, depths, current :: rest =>
      match relaxChildren current (childrenOf adj current) depths rest with
      | none => none
      | some (depths', queue') => bfsLoop adj fuel depths' queue'

/-- Fuel budget for the breadth-first loop, ample for tree-shaped input. -/
def bfsFuel (adj : Adj) : Nat := (adj.length + 1) * (adj.length + 1)

/-- Model of `build_tree.compute_depths`: every key starts at depth `-1`;
when the root is a key it is set to depth `0` and the queue loop runs. -/
def compute_depths (adj : Adj) (root : Int) : Option (List (Int × Int)) :=
  let depths := adj.map (fun p => (p.1, (-1 : Int)))
  match alistGet adj root with
  | none => some depths
  | some _ => bfsLoop adj (bfsFuel adj) (alistSet depths root 0) [root]

/-- Result record of `build_tree.structural_metrics`. -/
structure Metrics where
  depth : Rat
  avg_depth : Rat
  leaves : Rat
  branching_factor : Rat
  wiener_root_avg : Rat
deriving DecidableEq, Repr

/-- Maximum of a list of integers, mirroring Python `max` on a nonempty
iterable (the empty case is never reached by the caller). -/
def intMax : List Int → Int
  | [] => 0
  | [x] => x
  | x :: y :: rest => max x (intMax (y :: rest))

/-- Model of `build_tree.structural_metrics`.  The `Option` is inherited
from the fueled breadth-first search. -/
def structural_metrics (adj : Adj) (root : Int) : Option Metrics :=
  match alistGet adj root with
  | none => some { depth := 0, avg_depth := 0, leaves := 1,
                   branching_factor := 0, wiener_root_avg := 0 }
  | some _ =>
    match compute_depths adj root with
    | none => none
    | some depths =>
      let reachablePairs := depths.filter (fun p => 0 ≤ p.2)
      let reachable := reachablePairs.map Prod.fst
      if reachable.isEmpty then
        some { depth := 0, avg_depth := 0, leaves := 1,
               branching_factor := 0, wiener_root_avg := 0 }
      else
        let rdepths := reachablePairs.map Prod.snd
        let maxDepth := intMax rdepths
        let avgDepth : Rat := (rdepths.sum : Int) / (reachable.length : Rat)
        let leaves := reachable.filter (fun n => (childrenOf adj n).length = 0)
        let nonLeaves := reachable.filter (fun n => 0 < (childrenOf adj n).length)
        let branching : Rat :=
          if nonLeaves.length ≠ 0 then
            ((nonLeaves.map (fun n => ((childrenOf adj n).length : Int))).sum : Int) /
              (nonLeaves.length : Rat)
          else 0
        let wiener : Rat := (rdepths.sum : Int) / (reachable.length : Rat)
        some { depth := (maxDepth : Rat), avg_depth := avgDepth,
               leaves := (leaves.length : Rat), branching_factor := branching,
               wiener_root_avg := wiener }

/-- Record of the temporal features of `features.temporal_features`. -/
structure TemporalFeatures where
  time_to_k : Rat
  mean_inter_time : Rat
  var_inter_time : Rat
  half_life_ratio : Rat
  speed_change : Rat
deriving DecidableEq, Repr

/-- Mirror of `numpy.diff` on a list: consecutive differences. -/
def npDiff (ts : List Rat) : List Rat := List.zipWith (fun a b => b - a) ts ts.tail

/-- Mirror of `numpy.mean` (exact arithmetic). -/
def listMean (l : List Rat) : Rat := l.sum / (l.length : Rat)

/-- Mirror of `numpy.var` with the default population divisor. -/
def listVar (l : List Rat) : Rat := listMean (l.map (fun x => (x - listMean l) ^ 2))

/-- Model of `features.temporal_features` over exact rational times. -/
def temporal_features (pref : Cascade) : TemporalFeatures :=
  let evs := pref.events
  let k := evs.length
  let t_k : Rat := if 0 < k then (evs.map Event.time).getLastD 0 else 0
  if 1 < k then
    let times := evs.map Event.time
    let diffs := npDiff times
    let meanDiff := listMean diffs
    let varDiff := listVar diffs
    let halfK := k / 2
    let tHalf : Rat := if 1 ≤ halfK then times.getD (halfK - 1) 0 else 0
    let halfRatio : Rat := if 0 < t_k then tHalf / t_k else 0
    let firstDiffs := if 0 < halfK then diffs.take halfK else []
    let secondDiffs := if halfK < diffs.length then diffs.drop halfK else []
    let speedChange : Rat :=
      if secondDiffs.length = 0 then 0
      else
        let firstMean := if 0 < firstDiffs.length then listMean firstDiffs else meanDiff
        let secondMean := listMean secondDiffs
        if 0 < secondMean then firstMean / secondMean else 0
    { time_to_k := t_k, mean_inter_time := meanDiff, var_inter_time := varDiff,
      half_life_ratio := halfRatio, speed_change := speedChange }
  else
    { time_to_k := t_k, mean_inter_time := 0, var_inter_time := 0,
      half_life_ratio := 0, speed_change := 0 }

/-- Model of `labels.construct_labels`: one doubling label per cascade,
a missing cascade id defaulting to final size `0`. -/
def construct_labels (prefixes : List Cascade) (full_sizes : List (Int × Int))
    (k : Int) : List Int :=
  let threshold := 2 * k
  prefixes.map (fun pref =>
    if threshold ≤ (alistGet full_sizes pref.cid).getD 0 then 1 else 0)
/-- Specification function for the deterministic tie-break of
`earliest_event_by_user`: scan the list head-first and keep, for the given
user, the earliest-positioned event among those attaining the minimum time
(an equal time never displaces an earlier event). -/
def firstMinByUser (u : Int) : List Event → Option Event
  | [] => none
  | e :: rest =>
      if e.user = u then
        match firstMinByUser u rest with
        | none => some e
        | some m => if m.time < e.time then some m else some e
      else firstMinByUser u rest

/-- Helper for `firstAppearance`: drop elements already seen. -/
def faAux : List Int → List Int → List Int
  | [], _ => []
  | u :: rest, seen => if u ∈ seen then faAux rest seen else u :: faAux rest (u :: seen)

/-- Specification function for the output order of
`earliest_event_by_user`: the distinct values of a list in order of first
appearance. -/
def firstAppearance (l : List Int) : List Int := faAux l []

/-- Walks from the root along child edges of the adjacency, indexed by
length. -/
inductive ReachN (adj : Adj) (root : Int) : Int → Nat → Prop where
  | refl : ReachN adj root root 0
  | step {u v : Int} {n : Nat} :
      ReachN adj root u n → v ∈ childrenOf adj u → ReachN adj root v (n + 1)

/-- A node is reachable when some walk from the root ends at it. -/
def Reaches (adj : Adj) (root : Int) (v : Int) : Prop := ∃ n, ReachN adj root v n

/-- Loop invariant of the breadth-first search: keys are stable, the root
stays at depth `0`, every recorded depth is realised by a walk of that
length, queued nodes have a set depth, and every settled node (set depth,
not queued) has fully relaxed outgoing edges. -/
structure BfsInv (adj : Adj) (root : Int) (depths : List (Int × Int))
    (queue : List Int) : Prop where
  keys_eq : keysOf depths = keysOf adj
  root_zero : alistGet depths root = some 0
  sound : ∀ v d, alistGet depths v = some d →
      d = -1 ∨ (0 ≤ d ∧ ReachN adj root v d.toNat)
  queue_set : ∀ v ∈ queue, ∃ d, alistGet depths v = some d ∧ d ≠ -1
  relaxed : ∀ u du, alistGet depths u = some du → du ≠ -1 → u ∉ queue →
      ∀ v ∈ childrenOf adj u, ∃ dv, alistGet depths v = some dv ∧ dv ≠ -1 ∧ dv ≤ du + 1

/-! ### Association-list lemmas -/

theorem keysOf_nil {α : Type} : keysOf ([] : List (Int × α)) = [] := rfl

theorem keysOf_cons {α : Type} (p : Int × α) (m : List (Int × α)) :
    keysOf (p :: m) = p.1 :: keysOf m := rfl

theorem keysOf_append {α : Type} (m₁ m₂ : List (Int × α)) :
    keysOf (m₁ ++ m₂) = keysOf m₁ ++ keysOf m₂ := List.map_append _ _ _

theorem mem_keysOf_iff {α : Type} (m : List (Int × α)) (a : Int) :
    a ∈ keysOf m ↔ ∃ b, (a, b) ∈ m := by
  constructor
  · intro h
    obtain ⟨⟨x, y⟩, hmem, hx⟩ := List.mem_map.mp h
    refine ⟨y, ?_⟩
    have hx' : x = a := hx
    rw [← hx']
    exact hmem
  · rintro ⟨b, hb⟩
    exact List.mem_map.mpr ⟨(a, b), hb, rfl⟩

theorem alistGet_set_self {α : Type} (m : List (Int × α)) (k : Int) (v : α) :
    alistGet (alistSet m k v) k = some v := by
  induction m with
  | nil => simp [alistSet, alistGet]
  | cons p rest ih =>
      obtain ⟨a, b⟩ := p
      by_cases h : a = k <;> simp [alistSet, alistGet, h, ih]

theorem alistGet_set_ne {α : Type} (m : List (Int × α)) (k k' : Int) (v : α)
    (h : k' ≠ k) : alistGet (alistSet m k v) k' = alistGet m k' := by
  induction m with
  | nil => simp [alistSet, alistGet, Ne.symm h]
  | cons p rest ih =>
      obtain ⟨a, b⟩ := p
      by_cases ha : a = k
      · subst ha
        simp [alistSet, alistGet, Ne.symm h]
      · simp only [alistSet, if_neg ha, alistGet]
        rw [ih]

theorem keysOf_alistSet_of_mem {α : Type} (m : List (Int × α)) (k : Int) (v : α)
    (h : k ∈ keysOf m) : keysOf (alistSet m k v) = keysOf m := by
  induction m with
  | nil => simp [keysOf_nil] at h
  | cons p rest ih =>
      obtain ⟨a, b⟩ := p
      rw [keysOf_cons, List.mem_cons] at h
      by_cases ha : a = k
      · simp [alistSet, ha, keysOf_cons]
      · rcases h with h | h
        · exact absurd h.symm ha
        · simp only [alistSet, if_neg ha, keysOf_cons]
          rw [ih h]

theorem alistSet_of_not_mem {α : Type} (m : List (Int × α)) (k : Int) (v : α)
    (h : k ∉ keysOf m) : alistSet m k v = m ++ [(k, v)] := by
  induction m with
  | nil => simp [alistSet]
  | cons p rest ih =>
      obtain ⟨a, b⟩ := p
      rw [keysOf_cons, List.mem_cons] at h
      push_neg at h
      have ha : ¬ a = k := fun h' => h.1 h'.symm
      simp only [alistSet, if_neg ha, List.cons_append]
      rw [ih h.2]

theorem alistGet_eq_none_iff {α : Type} (m : List (Int × α)) (k : Int) :
    alistGet m k = none ↔ k ∉ keysOf m := by
  induction m with
  | nil => simp [alistGet, keysOf_nil]
  | cons p rest ih =>
      obtain ⟨a, b⟩ := p
      rw [keysOf_cons, List.mem_cons]
      by_cases ha : a = k
      · subst ha
        simp [alistGet]
      · simp only [alistGet, if_neg ha, ih]
        constructor
        · intro hk
          push_neg
          exact ⟨fun h' => ha h'.symm, hk⟩
        · intro hk
          push_neg at hk
          exact hk.2

theorem alistGet_isSome_of_mem {α : Type} (m : List (Int × α)) (k : Int)
    (h : k ∈ keysOf m) : ∃ v, alistGet m k = some v := by
  rcases h' : alistGet m k with _ | v
  · exact absurd ((alistGet_eq_none_iff m k).mp h') (by simpa using h)
  · exact ⟨v, rfl⟩

theorem mem_of_alistGet_eq_some {α : Type} (m : List (Int × α)) (k : Int) (v : α)
    (h : alistGet m k = some v) : (k, v) ∈ m := by
  induction m with
  | nil => simp [alistGet] at h
  | cons p rest ih =>
      obtain ⟨a, b⟩ := p
      by_cases ha : a = k
      · subst ha
        simp [alistGet] at h
        simp [h]
      · simp only [alistGet, if_neg ha] at h
        exact List.mem_cons_of_mem _ (ih h)

theorem mem_keys_of_alistGet {α : Type} (m : List (Int × α)) (k : Int) (v : α)
    (h : alistGet m k = some v) : k ∈ keysOf m :=
  (mem_keysOf_iff m k).mpr ⟨v, mem_of_alistGet_eq_some m k v h⟩

theorem alistGet_append_left {α : Type} (m₁ m₂ : List (Int × α)) (k : Int)
    (h : k ∈ keysOf m₁) : alistGet (m₁ ++ m₂) k = alistGet m₁ k := by
  induction m₁ with
  | nil => simp [keysOf_nil] at h
  | cons p rest ih =>
      obtain ⟨a, b⟩ := p
      rw [keysOf_cons, List.mem_cons] at h
      by_cases ha : a = k
      · simp [alistGet, ha]
      · rcases h with h | h
        · exact absurd h.symm ha
        · simp only [List.cons_append, alistGet, if_neg ha]
          exact ih h

theorem alistGet_append_right {α : Type} (m₁ m₂ : List (Int × α)) (k : Int)
    (h : k ∉ keysOf m₁) : alistGet (m₁ ++ m₂) k = alistGet m₂ k := by
  induction m₁ with
  | nil => simp
  | cons p rest ih =>
      obtain ⟨a, b⟩ := p
      rw [keysOf_cons, List.mem_cons] at h
      push_neg at h
      have ha : ¬ a = k := fun h' => h.1 h'.symm
      simp only [List.cons_append, alistGet, if_neg ha]
      exact ih h.2

theorem alistGet_of_mem_nodup {α : Type} (m : List (Int × α)) (k : Int) (v : α)
    (hnd : (keysOf m).Nodup) (h : (k, v) ∈ m) : alistGet m k = some v := by
  induction m with
  | nil => simp at h
  | cons p rest ih =>
      obtain ⟨a, b⟩ := p
      rw [keysOf_cons, List.nodup_cons] at hnd
      rcases List.mem_cons.mp h with h | h
      · obtain ⟨h1, h2⟩ := Prod.mk.injEq .. ▸ h
        subst h1
        subst h2
        simp [alistGet]
      · have hk : k ∈ keysOf rest := (mem_keysOf_iff rest k).mpr ⟨v, h⟩
        have ha : ¬ a = k := by
          intro hak
          subst hak
          exact hnd.1 hk
        simp only [alistGet, if_neg ha]
        exact ih hnd.2 h

theorem mem_alistSet_elim {α : Type} (m : List (Int × α)) (k : Int) (v : α)
    (hnd : (keysOf m).Nodup) (k' : Int) (v' : α) (h : (k', v') ∈ alistSet m k v) :
    (k' = k ∧ v' = v) ∨ ((k', v') ∈ m ∧ k' ≠ k) := by
  induction m with
  | nil =>
      simp only [alistSet, List.mem_singleton] at h
      obtain ⟨h1, h2⟩ := Prod.mk.injEq .. ▸ h
      exact Or.inl ⟨h1, h2⟩
  | cons p rest ih =>
      obtain ⟨a, b⟩ := p
      rw [keysOf_cons, List.nodup_cons] at hnd
      by_cases ha : a = k
      · have hred : alistSet ((a, b) :: rest) k v = (k, v) :: rest := by
          simp [alistSet, ha]
        rw [hred, List.mem_cons] at h
        rcases h with heq | hmem
        · obtain ⟨h1, h2⟩ := Prod.mk.injEq k' v' k v ▸ heq
          exact Or.inl ⟨h1, h2⟩
        · refine Or.inr ⟨List.mem_cons_of_mem _ hmem, fun hk => ?_⟩
          refine hnd.1 ?_
          rw [ha, ← hk]
          exact (mem_keysOf_iff rest k').mpr ⟨v', hmem⟩
      · have hred : alistSet ((a, b) :: rest) k v = (a, b) :: alistSet rest k v := by
          simp [alistSet, ha]
        rw [hred, List.mem_cons] at h
        rcases h with heq | hmem
        · obtain ⟨h1, h2⟩ := Prod.mk.injEq k' v' a b ▸ heq
          refine Or.inr ⟨by rw [heq]; exact List.mem_cons_self _ _, fun hh => ha ?_⟩
          rw [← h1, hh]
        · rcases ih hnd.2 hmem with ⟨h1, h2⟩ | ⟨h1, h2⟩
          · exact Or.inl ⟨h1, h2⟩
          · exact Or.inr ⟨List.mem_cons_of_mem _ h1, h2⟩

theorem keysOf_alistModify {α : Type} (m : List (Int × α)) (k : Int) (f : α → α) :
    keysOf (alistModify m k f) = keysOf m := by
  induction m with
  | nil => simp [alistModify]
  | cons p rest ih =>
      obtain ⟨a, b⟩ := p
      by_cases ha : a = k
      · simp [alistModify, ha, keysOf_cons]
      · simp only [alistModify, if_neg ha, keysOf_cons]
        rw [ih]

theorem alistGet_modify_self {α : Type} (m : List (Int × α)) (k : Int) (f : α → α) :
    alistGet (alistModify m k f) k = (alistGet m k).map f := by
  induction m with
  | nil => simp [alistModify, alistGet]
  | cons p rest ih =>
      obtain ⟨a, b⟩ := p
      by_cases ha : a = k <;> simp [alistModify, alistGet, ha, ih]

theorem alistGet_modify_ne {α : Type} (m : List (Int × α)) (k k' : Int) (f : α → α)
    (h : k' ≠ k) : alistGet (alistModify m k f) k' = alistGet m k' := by
  induction m with
  | nil => simp [alistModify]
  | cons p rest ih =>
      obtain ⟨a, b⟩ := p
      by_cases ha : a = k
      · subst ha
        simp [alistModify, alistGet, Ne.symm h]
      · simp only [alistModify, if_neg ha, alistGet]
        rw [ih]

theorem setdefault_of_mem {α : Type} (m : List (Int × α)) (k : Int) (v : α)
    (h : k ∈ keysOf m) : setdefault m k v = m := by
  obtain ⟨w, hw⟩ := alistGet_isSome_of_mem m k h
  simp [setdefault, hw]

theorem setdefault_of_not_mem {α : Type} (m : List (Int × α)) (k : Int) (v : α)
    (h : k ∉ keysOf m) : setdefault m k v = m ++ [(k, v)] := by
  simp [setdefault, (alistGet_eq_none_iff m k).mpr h]

theorem mem_keysOf_setdefault {α : Type} (m : List (Int × α)) (k : Int) (v : α)
    (a : Int) : a ∈ keysOf (setdefault m k v) ↔ a ∈ keysOf m ∨ a = k := by
  by_cases h : k ∈ keysOf m
  · rw [setdefault_of_mem m k v h]
    constructor
    · exact Or.inl
    · rintro (h' | rfl)
      · exact h'
      · exact h
  · rw [setdefault_of_not_mem m k v h, keysOf_append]
    simp [keysOf_cons, keysOf_nil]

theorem childrenOf_setdefault (adj : Adj) (k u : Int) :
    childrenOf (setdefault adj k []) u = childrenOf adj u := by
  by_cases h : k ∈ keysOf adj
  · rw [setdefault_of_mem adj k [] h]
  · rw [setdefault_of_not_mem adj k [] h]
    by_cases hu : u ∈ keysOf adj
    · unfold childrenOf
      rw [alistGet_append_left adj [(k, [])] u hu]
    · unfold childrenOf
      rw [alistGet_append_right adj [(k, [])] u hu]
      rcases h' : alistGet adj u with _ | w
      · by_cases hk : k = u <;> simp [alistGet, hk]
      · exact absurd (mem_keys_of_alistGet adj u w h') hu

/-! ### Labels (claim C9) -/

theorem getD_map_lt {α β : Type} (f : α → β) (l : List α) (i : Nat) (d : α) (d' : β)
    (h : i < l.length) : (l.map f).getD i d' = f (l.getD i d) := by
  induction l generalizing i with
  | nil => simp at h
  | cons x rest ih =>
      cases i with
      | zero => rfl
      | succ j =>
          simp only [List.map_cons, List.getD_cons_succ]
          exact ih j (by simpa using h)

/-- C9 counterexample: at `k = 0`, a cascade id missing from `full_sizes`
receives label `1`, because the default final size `0` already meets the
threshold `2 * 0 = 0`, while the claim predicts label `0`. -/
theorem construct_labels_missing_id_k0 :
    construct_labels [{ cid := 7, root := 0, publish_time := 0, events := [] }] [] 0 = [1]
    ∧ (1 : Int) ≠ 0 := by
  constructor
  · rfl
  · decide

/-- C9 (amended): `construct_labels` returns one label per cascade, in
order; entry `i` is `1` exactly when the recorded final size of cascade `i`
(default `0` for a missing id) is at least `2 * k`; for `k ≥ 1` a missing
id therefore yields label `0`; and on sizes `{1 ↦ 10, 2 ↦ 3}` with `k = 5`
the labels are `[1, 0]`. -/
theorem construct_labels_spec (prefixes : List Cascade) (sizes : List (Int × Int))
    (k : Int) :
    ((construct_labels prefixes sizes k).length = prefixes.length
      ∧ ∀ i, i < prefixes.length →
          (construct_labels prefixes sizes k).getD i 0 =
            if 2 * k ≤ (alistGet sizes ((prefixes.getD i ⟨0, 0, 0, []⟩).cid)).getD 0
            then 1 else 0)
    ∧ (1 ≤ k → ∀ i, i < prefixes.length →
        alistGet sizes ((prefixes.getD i ⟨0, 0, 0, []⟩).cid) = none →
        (construct_labels prefixes sizes k).getD i 0 = 0)
    ∧ (∀ p₁ p₂ : Cascade, p₁.cid = 1 → p₂.cid = 2 →
        construct_labels [p₁, p₂] [(1, 10), (2, 3)] 5 = [1, 0]) := by
  have hmap : construct_labels prefixes sizes k =
      prefixes.map (fun pref =>
        if 2 * k ≤ (alistGet sizes pref.cid).getD 0 then (1 : Int) else 0) := rfl
  have hidx : ∀ i, i < prefixes.length →
      (construct_labels prefixes sizes k).getD i 0 =
        if 2 * k ≤ (alistGet sizes ((prefixes.getD i ⟨0, 0, 0, []⟩).cid)).getD 0
        then 1 else 0 := by
    intro i hi
    rw [hmap, getD_map_lt _ _ i ⟨0, 0, 0, []⟩ 0 hi]
  refine ⟨⟨by rw [hmap]; exact List.length_map _ _, hidx⟩, ?_, ?_⟩
  · intro hk i hi hnone
    rw [hidx i hi, hnone]
    have hlt : ¬ (2 * k ≤ (none : Option Int).getD 0) := by
      simp only [Option.getD_none]
      omega
    rw [if_neg hlt]
  · intro p₁ p₂ h₁ h₂
    simp [construct_labels, alistGet, h₁, h₂]

/-- C9 witness: the amended specification evaluated on the concrete
example of the claim, plus a missing id at `k = 5`. -/
theorem construct_labels_spec_witness :
    construct_labels [⟨1, 0, 0, []⟩, ⟨2, 0, 0, []⟩] [(1, 10), (2, 3)] 5 = [1, 0]
    ∧ (construct_labels [⟨7, 0, 0, []⟩] [(1, 10), (2, 3)] 5).getD 0 0 = 0 := by
  constructor
  · exact (construct_labels_spec [] [] 0).2.2 ⟨1, 0, 0, []⟩ ⟨2, 0, 0, []⟩ rfl rfl
  · exact (construct_labels_spec [⟨7, 0, 0, []⟩] [(1, 10), (2, 3)] 5).2.1
      (by norm_num) 0 (by norm_num) (by rfl)

/-! ### Structural metrics (claims C3 and C7) -/

theorem keysOf_initDepths (adj : Adj) :
    keysOf (adj.map (fun p => (p.1, (-1 : Int)))) = keysOf adj := by
  induction adj with
  | nil => rfl
  | cons p rest ih => simp [keysOf_cons, ih]

theorem bfsLoop_no_children (adj : Adj) (f : Nat) (depths : List (Int × Int))
    (root : Int) (h : childrenOf adj root = []) :
    bfsLoop adj (f + 1) depths [root] = some depths := by
  simp [bfsLoop, h, relaxChildren]

theorem bfsFuel_pos (adj : Adj) : 0 < bfsFuel adj :=
  Nat.mul_pos (Nat.succ_pos _) (Nat.succ_pos _)

theorem compute_depths_childless (adj : Adj) (root : Int)
    (h : alistGet adj root = some []) :
    compute_depths adj root =
      some (alistSet (adj.map (fun p => (p.1, (-1 : Int)))) root 0) := by
  obtain ⟨f, hf⟩ := Nat.exists_eq_succ_of_ne_zero (Nat.pos_iff_ne_zero.mp (bfsFuel_pos adj))
  have hch : childrenOf adj root = [] := by
    unfold childrenOf
    rw [h]
    rfl
  unfold compute_depths
  rw [h, hf]
  exact bfsLoop_no_children adj f _ root hch

theorem filter_alistSet_root (m : List (Int × Int)) (root : Int)
    (hall : ∀ p ∈ m, p.2 = -1) (hmem : root ∈ keysOf m) :
    (alistSet m root 0).filter (fun p => 0 ≤ p.2) = [(root, 0)] := by
  induction m with
  | nil => simp [keysOf_nil] at hmem
  | cons p rest ih =>
      obtain ⟨a, b⟩ := p
      have hb : b = -1 := hall (a, b) (List.mem_cons_self _ _)
      by_cases ha : a = root
      · have hred : alistSet ((a, b) :: rest) root 0 = (root, 0) :: rest := by
          simp [alistSet, ha]
        rw [hred]
        simp only [List.filter_cons]
        norm_num
        intro x y hxy
        have hx := hall (x, y) (List.mem_cons_of_mem _ hxy)
        simp only at hx
        omega
      · have hred : alistSet ((a, b) :: rest) root 0 = (a, b) :: alistSet rest root 0 := by
          simp [alistSet, ha]
        rw [hred]
        have hmem' : root ∈ keysOf rest := by
          rw [keysOf_cons, List.mem_cons] at hmem
          rcases hmem with hmem | hmem
          · exact absurd hmem.symm ha
          · exact hmem
        simp only [List.filter_cons, hb]
        norm_num
        exact ih (fun x hx => hall x (List.mem_cons_of_mem _ hx)) hmem'

/-- C3: `structural_metrics` returns the degenerate sentinel metrics
`depth = 0, avg_depth = 0, leaves = 1, branching_factor = 0,
wiener_root_avg = 0` when the root is absent from the adjacency, and also
when the root is mapped to an empty child set (root-only tree): the root
itself is then the single leaf. -/
theorem structural_metrics_degenerate (adj : Adj) (r : Int)
    (h : alistGet adj r = none ∨ alistGet adj r = some []) :
    structural_metrics adj r =
      some { depth := 0, avg_depth := 0, leaves := 1,
             branching_factor := 0, wiener_root_avg := 0 } := by
  rcases h with h | h
  · unfold structural_metrics
    rw [h]
  · have hmemAdj : r ∈ keysOf adj := mem_keys_of_alistGet adj r [] h
    have hall : ∀ p ∈ adj.map (fun p => (p.1, (-1 : Int))), p.2 = -1 := by
      intro p hp
      obtain ⟨q, _, hq⟩ := List.mem_map.mp hp
      rw [← hq]
    have hmem : r ∈ keysOf (adj.map (fun p => (p.1, (-1 : Int)))) := by
      rw [keysOf_initDepths]
      exact hmemAdj
    have hfilter := filter_alistSet_root _ r hall hmem
    have hch : childrenOf adj r = [] := by
      unfold childrenOf
      rw [h]
      rfl
    unfold structural_metrics
    rw [h, compute_depths_childless adj r h]
    simp only [hfilter]
    simp [intMax, hch, listMean]

/-- C3 witness: a root-only adjacency evaluates to the degenerate metrics. -/
theorem structural_metrics_degenerate_witness :
    structural_metrics [(5, [])] 5 =
      some { depth := 0, avg_depth := 0, leaves := 1,
             branching_factor := 0, wiener_root_avg := 0 } :=
  structural_metrics_degenerate [(5, [])] 5 (Or.inr rfl)

/-- C7: whenever `structural_metrics` returns a result, its
`wiener_root_avg` field equals its `avg_depth` field; the two are computed
by the same mean-depth expression. -/
theorem wiener_eq_avg_depth (adj : Adj) (r : Int) (m : Metrics)
    (h : structural_metrics adj r = some m) : m.wiener_root_avg = m.avg_depth := by
  rcases hg : alistGet adj r with _ | cs
  · simp only [structural_metrics, hg, Option.some.injEq] at h
    rw [← h]
  · rcases hd : compute_depths adj r with _ | depths
    · simp only [structural_metrics, hg, hd] at h
      exact Option.noConfusion h
    · simp only [structural_metrics, hg, hd] at h
      by_cases he : ((depths.filter (fun p => 0 ≤ p.2)).map Prod.fst).isEmpty = true
      · rw [if_pos he] at h
        simp only [Option.some.injEq] at h
        rw [← h]
      · rw [if_neg he] at h
        simp only [Option.some.injEq] at h
        rw [← h]

/-- C7 witness: the two fields coincide on a concrete adjacency. -/
theorem wiener_eq_avg_depth_witness :
    (Metrics.mk 0 0 1 0 0).wiener_root_avg = (Metrics.mk 0 0 1 0 0).avg_depth :=
  wiener_eq_avg_depth [] 3 (Metrics.mk 0 0 1 0 0) rfl

/-! ### Temporal features (claim C4) -/

/-- C4: on any prefix cascade whose (sorted) event times are
`[1, 3, 4, 10]`, `temporal_features` returns `time_to_k = 10`,
`mean_inter_time = 3`, `var_inter_time = 14/3` (population variance of the
differences `[2, 1, 6]`), `half_life_ratio = 3/10` and
`speed_change = 1/4` (mean of `[2, 1]` over mean of `[6]`). -/
theorem temporal_features_example (c : Cascade)
    (h : c.events.map Event.time = [1, 3, 4, 10]) :
    temporal_features c =
      { time_to_k := 10, mean_inter_time := 3, var_inter_time := 14/3,
        half_life_ratio := 3/10, speed_change := 1/4 } := by
  rcases hevs : c.events with _ | ⟨e1, _ | ⟨e2, _ | ⟨e3, _ | ⟨e4, _ | _⟩⟩⟩⟩ <;>
    rw [hevs] at h <;> simp at h
  obtain ⟨h1, h2, h3, h4⟩ := h
  unfold temporal_features
  rw [hevs]
  simp [npDiff, listMean, listVar, h1, h2, h3, h4]
  norm_num

/-- C4 witness: the statement evaluated on a concrete four-event cascade. -/
theorem temporal_features_example_witness :
    temporal_features ⟨1, 0, 0, [⟨1, 0, 1⟩, ⟨2, 0, 3⟩, ⟨3, 0, 4⟩, ⟨4, 0, 10⟩]⟩ =
      { time_to_k := 10, mean_inter_time := 3, var_inter_time := 14/3,
        half_life_ratio := 3/10, speed_change := 1/4 } :=
  temporal_features_example _ rfl

/-! ### Prefix truncation (claims C2 and C5) -/

theorem timeLE_trans : ∀ a b c : Event, timeLE a b → timeLE b c → timeLE a c := by
  intro a b c hab hbc
  simp only [timeLE, decide_eq_true_eq] at hab hbc ⊢
  exact le_trans hab hbc

theorem timeLE_total : ∀ a b : Event, timeLE a b || timeLE b a := by
  intro a b
  simp only [timeLE]
  rcases le_total a.time b.time with h | h <;> simp [h]

theorem sortEvents_events (c : Cascade) :
    (sortEvents c).events = c.events.mergeSort timeLE := rfl

theorem getKPrefix_fst (c : Cascade) (k : Int) :
    (getKPrefix c k).1 = sortEvents c := by
  simp only [getKPrefix]
  split <;> rfl

theorem sorted_events_sortEvents (c : Cascade) :
    (sortEvents c).events.Pairwise (fun a b => a.time ≤ b.time) := by
  rw [sortEvents_events]
  exact (List.sorted_mergeSort timeLE_trans timeLE_total c.events).imp
    (fun h => by simpa [timeLE] using h)

/-- C2 counterexample: when the receiver's events are out of time order,
`get_k_prefix` mutates the receiver by sorting its event list in place, so
the events (and their order) are not the same after the call. -/
theorem getKPrefix_mutates_events :
    (getKPrefix ⟨1, 0, 0, [⟨1, 0, 2⟩, ⟨2, 0, 1⟩]⟩ 1).1.events
      ≠ [⟨1, 0, 2⟩, ⟨2, 0, 1⟩] := by
  intro h
  have hs := sorted_events_sortEvents ⟨1, 0, 0, [⟨1, 0, 2⟩, ⟨2, 0, 1⟩]⟩
  rw [← getKPrefix_fst _ 1] at hs
  rw [h] at hs
  exact absurd hs (by decide)

/-- C2 (amended): the call never changes the receiver's cid, root or
publish time, and keeps the receiver's events as a multiset, but it
re-sorts them in place into ascending time order; when the events were
already sorted by time the receiver is entirely unchanged (so the claim
holds for sorted cascades); the truncation itself is a fresh cascade
value, not a view of the receiver. -/
theorem getKPrefix_frame (c : Cascade) (k : Int) :
    (getKPrefix c k).1.cid = c.cid
    ∧ (getKPrefix c k).1.root = c.root
    ∧ (getKPrefix c k).1.publish_time = c.publish_time
    ∧ (getKPrefix c k).1.events.Perm c.events
    ∧ (getKPrefix c k).1.events.Pairwise (fun a b => a.time ≤ b.time)
    ∧ (c.events.Pairwise (fun a b => a.time ≤ b.time) → (getKPrefix c k).1 = c) := by
  rw [getKPrefix_fst]
  refine ⟨rfl, rfl, rfl, ?_, sorted_events_sortEvents c, ?_⟩
  · rw [sortEvents_events]
    exact List.mergeSort_perm c.events timeLE
  · intro hsorted
    have hb : c.events.Pairwise (fun a b => timeLE a b) := by
      exact hsorted.imp (fun h => by simp [timeLE, h])
    have hms : c.events.mergeSort timeLE = c.events := List.mergeSort_of_sorted hb
    cases c with
    | mk cid root pub evs =>
        simp only at hms
        simp only [sortEvents, hms]

/-- C2 witness: on a cascade whose events are already sorted by time, the
receiver is unchanged by the call. -/
theorem getKPrefix_frame_witness :
    (getKPrefix ⟨1, 0, 0, [⟨1, 0, 1⟩, ⟨2, 0, 2⟩]⟩ 1).1 =
      ⟨1, 0, 0, [⟨1, 0, 1⟩, ⟨2, 0, 2⟩]⟩ :=
  (getKPrefix_frame ⟨1, 0, 0, [⟨1, 0, 1⟩, ⟨2, 0, 2⟩]⟩ 1).2.2.2.2.2 (by decide)

/-- C5 counterexample: at `k = -1` the cascade with one event has at least
`k` events, yet the call returns a truncation with `0` events rather than
`k` events: a Python slice with a negative bound counts from the end. -/
theorem getKPrefix_negative_k :
    ((getKPrefix ⟨1, 0, 0, [⟨5, 0, 2⟩]⟩ (-1)).2.map (fun p => (p.events.length : Int)))
      = some 0 ∧ (0 : Int) ≠ -1 := by
  have hse : sortEvents ⟨1, 0, 0, [⟨5, 0, 2⟩]⟩ = ⟨1, 0, 0, [⟨5, 0, 2⟩]⟩ := by
    unfold sortEvents
    rw [List.mergeSort_singleton]
  constructor
  · simp only [getKPrefix, hse]
    norm_num [pySliceTo]
  · decide

/-- C5 (amended for `k ≥ 0`): when the cascade has at least `k` events the
call returns a fresh cascade with the same cid, root and publish time whose
events are exactly `k` in number, sorted ascending by time, and are the `k`
earliest events (every kept event is no later than every dropped one); when
the cascade has fewer than `k` events the call returns the absent result. -/
theorem getKPrefix_spec (c : Cascade) (k : Int) (hk : 0 ≤ k) :
    ((k ≤ (c.events.length : Int)) →
      ∃ p rest,
        (getKPrefix c k).2 = some p
        ∧ p.cid = c.cid ∧ p.root = c.root ∧ p.publish_time = c.publish_time
        ∧ (p.events.length : Int) = k
        ∧ p.events.Pairwise (fun a b => a.time ≤ b.time)
        ∧ (p.events ++ rest).Perm c.events
        ∧ (∀ a ∈ p.events, ∀ b ∈ rest, a.time ≤ b.time))
    ∧ (((c.events.length : Int) < k) → (getKPrefix c k).2 = none) := by
  have hlen : (sortEvents c).events.length = c.events.length := by
    rw [sortEvents_events]
    exact List.length_mergeSort c.events
  constructor
  · intro hge
    have hnotlt : ¬ ((sortEvents c).events.length : Int) < k := by
      rw [hlen]
      omega
    have hsnd : (getKPrefix c k).2 =
        some { cid := c.cid, root := c.root, publish_time := c.publish_time,
               events := pySliceTo (sortEvents c).events k } := by
      unfold getKPrefix
      rw [if_neg hnotlt]
    have hslice : pySliceTo (sortEvents c).events k =
        (sortEvents c).events.take k.toNat := by
      unfold pySliceTo
      rw [if_neg (by omega)]
    refine ⟨_, (sortEvents c).events.drop k.toNat, hsnd, rfl, rfl, rfl, ?_, ?_, ?_, ?_⟩
    · simp only [hslice]
      rw [List.length_take]
      have : k.toNat ≤ (sortEvents c).events.length := by
        rw [hlen]
        omega
      omega
    · simp only [hslice]
      exact (sorted_events_sortEvents c).sublist (List.take_sublist _ _)
    · simp only [hslice]
      rw [List.take_append_drop]
      have := List.mergeSort_perm c.events timeLE
      rw [← sortEvents_events] at this
      exact this
    · simp only [hslice]
      have hsorted := sorted_events_sortEvents c
      have hsplit : (sortEvents c).events =
          (sortEvents c).events.take k.toNat ++ (sortEvents c).events.drop k.toNat :=
        (List.take_append_drop _ _).symm
      rw [hsplit] at hsorted
      exact (List.pairwise_append.mp hsorted).2.2
  · intro hlt
    have hlt' : ((sortEvents c).events.length : Int) < k := by
      rw [hlen]
      exact hlt
    unfold getKPrefix
    rw [if_pos hlt']

/-- C5 witness: a two-event cascade truncated at `k = 1`, and a one-event
cascade truncated at `k = 5` yielding the absent result. -/
theorem getKPrefix_spec_witness :
    (getKPrefix ⟨1, 0, 0, [⟨1, 0, 2⟩, ⟨2, 0, 1⟩]⟩ 1).2 ≠ none
    ∧ (getKPrefix ⟨1, 0, 0, [⟨1, 0, 2⟩]⟩ 5).2 = none := by
  constructor
  · obtain ⟨p, rest, hsome, _⟩ :=
      (getKPrefix_spec ⟨1, 0, 0, [⟨1, 0, 2⟩, ⟨2, 0, 1⟩]⟩ 1 (by norm_num)).1 (by norm_num)
    rw [hsome]
    exact fun h => Option.noConfusion h
  · exact (getKPrefix_spec ⟨1, 0, 0, [⟨1, 0, 2⟩]⟩ 5 (by norm_num)).2 (by norm_num)

/-! ### Tree building (claim C6) -/

theorem mem_setAdd (s : List Int) (u v : Int) : v ∈ setAdd s u ↔ v ∈ s ∨ v = u := by
  unfold setAdd
  by_cases h : u ∈ s
  · rw [if_pos h]
    constructor
    · exact Or.inl
    · rintro (hv | rfl)
      · exact hv
      · exact h
  · rw [if_neg h]
    simp

theorem mem_keysOf_buildLoop (evs : List Event) (adj : Adj) (a : Int) :
    a ∈ keysOf (buildLoop evs adj) ↔
      a ∈ keysOf adj ∨ ∃ e ∈ evs, a = e.parent ∨ a = e.user := by
  induction evs generalizing adj with
  | nil => simp [buildLoop]
  | cons e rest ih =>
      simp only [buildLoop]
      rw [ih]
      have hmod : keysOf (alistModify (setdefault (setdefault adj e.parent []) e.user [])
          e.parent (fun s => setAdd s e.user)) =
          keysOf (setdefault (setdefault adj e.parent []) e.user []) :=
        keysOf_alistModify _ _ _
      rw [hmod, mem_keysOf_setdefault, mem_keysOf_setdefault, List.exists_mem_cons_iff]
      constructor
      · rintro (((h | h) | h) | h)
        · exact Or.inl h
        · exact Or.inr (Or.inl (Or.inl h))
        · exact Or.inr (Or.inl (Or.inr h))
        · exact Or.inr (Or.inr h)
      · rintro (h | ((h | h) | h))
        · exact Or.inl (Or.inl (Or.inl h))
        · exact Or.inl (Or.inl (Or.inr h))
        · exact Or.inl (Or.inr h)
        · exact Or.inr h

theorem mem_childrenOf_buildLoop (evs : List Event) (adj : Adj) (p u : Int) :
    u ∈ childrenOf (buildLoop evs adj) p ↔
      u ∈ childrenOf adj p ∨ ∃ e ∈ evs, e.parent = p ∧ e.user = u := by
  induction evs generalizing adj with
  | nil => simp [buildLoop]
  | cons e rest ih =>
      simp only [buildLoop]
      rw [ih, List.exists_mem_cons_iff]
      have hchsd : childrenOf (setdefault (setdefault adj e.parent []) e.user []) p
          = childrenOf adj p := by
        rw [childrenOf_setdefault, childrenOf_setdefault]
      by_cases hp : e.parent = p
      · subst hp
        have hmem : e.parent ∈ keysOf (setdefault (setdefault adj e.parent []) e.user []) := by
          rw [mem_keysOf_setdefault, mem_keysOf_setdefault]
          left
          right
          rfl
        obtain ⟨s, hs⟩ := alistGet_isSome_of_mem _ e.parent hmem
        have hcs : childrenOf (setdefault (setdefault adj e.parent []) e.user []) e.parent
            = s := by
          unfold childrenOf
          rw [hs]
          rfl
        have hget : childrenOf (alistModify (setdefault (setdefault adj e.parent []) e.user [])
            e.parent (fun t => setAdd t e.user)) e.parent = setAdd s e.user := by
          unfold childrenOf
          rw [alistGet_modify_self, hs]
          rfl
        rw [hget, mem_setAdd]
        rw [← hchsd, hcs]
        constructor
        · rintro ((h | h) | h)
          · exact Or.inl h
          · exact Or.inr (Or.inl ⟨rfl, h.symm⟩)
          · exact Or.inr (Or.inr h)
        · rintro (h | ⟨_, h⟩ | h)
          · exact Or.inl (Or.inl h)
          · exact Or.inl (Or.inr h.symm)
          · exact Or.inr h
      · have hget : childrenOf (alistModify (setdefault (setdefault adj e.parent []) e.user [])
            e.parent (fun t => setAdd t e.user)) p =
            childrenOf (setdefault (setdefault adj e.parent []) e.user []) p := by
          unfold childrenOf
          rw [alistGet_modify_ne _ _ _ _ (fun h => hp h.symm)]
        rw [hget, hchsd]
        constructor
        · rintro (h | h)
          · exact Or.inl h
          · exact Or.inr (Or.inr h)
        · rintro (h | ⟨h1, _⟩ | h)
          · exact Or.inl h
          · exact absurd h1 hp
          · exact Or.inr h

theorem build_tree_init (c : Cascade) :
    build_tree c = buildLoop c.events [(c.root, [])] := rfl

/-- C6: the adjacency built from a cascade contains exactly the root plus
the endpoints of its events as keys; every event contributes its user to
its parent's child set, and the child sets contain nothing else; the root's
child set is empty when no event names it as parent. -/
theorem build_tree_adjacency_spec (c : Cascade) :
    c.root ∈ keysOf (build_tree c)
    ∧ ((∀ e ∈ c.events, e.parent ≠ c.root) → childrenOf (build_tree c) c.root = [])
    ∧ (∀ e ∈ c.events,
        e.parent ∈ keysOf (build_tree c) ∧ e.user ∈ keysOf (build_tree c)
        ∧ e.user ∈ childrenOf (build_tree c) e.parent)
    ∧ (∀ n ∈ keysOf (build_tree c), n = c.root ∨ ∃ e ∈ c.events, n = e.parent ∨ n = e.user)
    ∧ (∀ p u, u ∈ childrenOf (build_tree c) p → ∃ e ∈ c.events, e.parent = p ∧ e.user = u) := by
  rw [build_tree_init]
  refine ⟨?_, ?_, ?_, ?_, ?_⟩
  · rw [mem_keysOf_buildLoop]
    left
    simp [keysOf]
  · intro hnone
    rw [List.eq_nil_iff_forall_not_mem]
    intro u hu
    rw [mem_childrenOf_buildLoop] at hu
    rcases hu with hu | ⟨e, he, hep, _⟩
    · have : childrenOf [(c.root, [])] c.root = [] := by
        simp [childrenOf, alistGet]
      rw [this] at hu
      exact List.not_mem_nil u hu
    · exact hnone e he hep
  · intro e he
    refine ⟨?_, ?_, ?_⟩
    · rw [mem_keysOf_buildLoop]
      exact Or.inr ⟨e, he, Or.inl rfl⟩
    · rw [mem_keysOf_buildLoop]
      exact Or.inr ⟨e, he, Or.inr rfl⟩
    · rw [mem_childrenOf_buildLoop]
      exact Or.inr ⟨e, he, rfl, rfl⟩
  · intro n hn
    rw [mem_keysOf_buildLoop] at hn
    rcases hn with hn | ⟨e, he, hn⟩
    · left
      simpa [keysOf] using hn
    · exact Or.inr ⟨e, he, hn⟩
  · intro p u hu
    rw [mem_childrenOf_buildLoop] at hu
    rcases hu with hu | hu
    · by_cases hp : c.root = p
      · subst hp
        have : childrenOf [(c.root, [])] c.root = [] := by
          simp [childrenOf, alistGet]
        rw [this] at hu
        exact absurd hu (List.not_mem_nil u)
      · have : childrenOf [(c.root, [])] p = [] := by
          simp [childrenOf, alistGet, hp]
        rw [this] at hu
        exact absurd hu (List.not_mem_nil u)
    · exact hu

/-- C6 witness: the specification applied to a one-event cascade and, for
the empty-child-set clause, to an event-free cascade. -/
theorem build_tree_adjacency_spec_witness :
    (1 : Int) ∈ childrenOf (build_tree ⟨1, 0, 0, [⟨1, 0, 1⟩]⟩) 0
    ∧ (0 : Int) ∈ keysOf (build_tree ⟨1, 0, 0, [⟨1, 0, 1⟩]⟩)
    ∧ childrenOf (build_tree ⟨2, 7, 0, []⟩) 7 = [] := by
  refine ⟨?_, (build_tree_adjacency_spec ⟨1, 0, 0, [⟨1, 0, 1⟩]⟩).1, ?_⟩
  · exact ((build_tree_adjacency_spec ⟨1, 0, 0, [⟨1, 0, 1⟩]⟩).2.2.1 ⟨1, 0, 1⟩
      (List.mem_cons_self _ _)).2.2
  · exact (build_tree_adjacency_spec ⟨2, 7, 0, []⟩).2.1 (by simp)

/-! ### Event deduplication (claims C8 and C10) -/

theorem mem_faAux (l : List Int) (seen : List Int) (x : Int) :
    x ∈ faAux l seen ↔ x ∈ l ∧ x ∉ seen := by
  induction l generalizing seen with
  | nil => simp [faAux]
  | cons u rest ih =>
      by_cases hu : u ∈ seen
      · rw [faAux, if_pos hu, ih]
        simp only [List.mem_cons]
        constructor
        · rintro ⟨h1, h2⟩
          exact ⟨Or.inr h1, h2⟩
        · rintro ⟨h1 | h1, h2⟩
          · exact absurd (h1 ▸ hu) h2
          · exact ⟨h1, h2⟩
      · rw [faAux, if_neg hu]
        simp only [List.mem_cons, ih, List.mem_cons]
        constructor
        · rintro (rfl | ⟨h1, h2⟩)
          · exact ⟨Or.inl rfl, hu⟩
          · push_neg at h2
            exact ⟨Or.inr h1, h2.2⟩
        · rintro ⟨rfl | h1, h2⟩
          · exact Or.inl rfl
          · by_cases hx : x = u
            · exact Or.inl hx
            · exact Or.inr ⟨h1, by push_neg; exact ⟨hx, h2⟩⟩

theorem mem_firstAppearance (l : List Int) (x : Int) :
    x ∈ firstAppearance l ↔ x ∈ l := by
  unfold firstAppearance
  rw [mem_faAux]
  simp

theorem faAux_nodup (l : List Int) (seen : List Int) : (faAux l seen).Nodup := by
  induction l generalizing seen with
  | nil => simp [faAux]
  | cons u rest ih =>
      by_cases hu : u ∈ seen
      · rw [faAux, if_pos hu]
        exact ih seen
      · rw [faAux, if_neg hu]
        refine List.nodup_cons.mpr ⟨?_, ih (u :: seen)⟩
        rw [mem_faAux]
        rintro ⟨_, h2⟩
        exact h2 (List.mem_cons_self _ _)

theorem firstAppearance_nodup (l : List Int) : (firstAppearance l).Nodup :=
  faAux_nodup l []

theorem faAux_snoc (l : List Int) (seen : List Int) (u : Int) :
    faAux (l ++ [u]) seen =
      if u ∈ l ∨ u ∈ seen then faAux l seen else faAux l seen ++ [u] := by
  induction l generalizing seen with
  | nil =>
      simp only [List.nil_append, faAux]
      by_cases hu : u ∈ seen
      · rw [if_pos hu, if_pos (Or.inr hu)]
      · rw [if_neg hu, if_neg (by simp [hu])]
  | cons x rest ih =>
      by_cases hx : x ∈ seen
      · simp only [List.cons_append, faAux, if_pos hx, List.append_eq]
        rw [ih seen]
        by_cases hc : u ∈ rest ∨ u ∈ seen
        · rw [if_pos hc, if_pos (by rcases hc with h | h; exact Or.inl (List.mem_cons_of_mem _ h); exact Or.inr h)]
        · rw [if_neg hc]
          rw [if_neg ?_]
          push_neg at hc ⊢
          refine ⟨?_, hc.2⟩
          intro hm
          rcases List.mem_cons.mp hm with rfl | hm
          · exact absurd hx hc.2
          · exact hc.1 hm
      · simp only [List.cons_append, faAux, if_neg hx, List.append_eq]
        rw [ih (x :: seen)]
        by_cases hc : u ∈ rest ∨ u ∈ x :: seen
        · rw [if_pos hc]
          have : u ∈ x :: rest ∨ u ∈ seen := by
            rcases hc with h | h
            · exact Or.inl (List.mem_cons_of_mem _ h)
            · rcases List.mem_cons.mp h with rfl | h
              · exact Or.inl (List.mem_cons_self _ _)
              · exact Or.inr h
          rw [if_pos this]
        · rw [if_neg hc]
          push_neg at hc
          have : ¬ (u ∈ x :: rest ∨ u ∈ seen) := by
            push_neg
            constructor
            · intro hm
              rcases List.mem_cons.mp hm with rfl | hm
              · exact hc.2 (List.mem_cons_self _ _)
              · exact hc.1 hm
            · intro hm
              exact hc.2 (List.mem_cons_of_mem _ hm)
          rw [if_neg this]

theorem firstAppearance_snoc (l : List Int) (u : Int) :
    firstAppearance (l ++ [u]) =
      if u ∈ l then firstAppearance l else firstAppearance l ++ [u] := by
  unfold firstAppearance
  rw [faAux_snoc]
  simp

theorem firstMinByUser_eq_none (u : Int) (l : List Event) :
    firstMinByUser u l = none ↔ ∀ e ∈ l, e.user ≠ u := by
  induction l with
  | nil => simp [firstMinByUser]
  | cons e rest ih =>
      simp only [firstMinByUser]
      by_cases he : e.user = u
      · rw [if_pos he]
        constructor
        · intro h
          exfalso
          rcases hm : firstMinByUser u rest with _ | m <;> rw [hm] at h <;> simp at h <;>
            split at h <;> exact Option.noConfusion h
        · intro h
          exact absurd he (h e (List.mem_cons_self _ _))
      · rw [if_neg he, ih]
        constructor
        · intro h e' he'
          rcases List.mem_cons.mp he' with rfl | he'
          · exact he
          · exact h e' he'
        · intro h e' he'
          exact h e' (List.mem_cons_of_mem _ he')

theorem firstMinByUser_snoc (u : Int) (l : List Event) (ev : Event) :
    firstMinByUser u (l ++ [ev]) =
      if ev.user = u then
        match firstMinByUser u l with
        | none => some ev
        | some m => if ev.time < m.time then some ev else some m
      else firstMinByUser u l := by
  induction l with
  | nil =>
      simp only [List.nil_append, firstMinByUser]
  | cons e rest ih =>
      simp only [List.cons_append, List.append_eq, firstMinByUser, ih]
      rcases hm : firstMinByUser u rest with _ | m
      · simp only [hm]
        by_cases h1 : e.user = u <;> by_cases h2 : ev.user = u <;>
          simp only [h1, h2, eq_self_iff_true, if_true, if_false]
      · simp only [hm]
        by_cases h1 : e.user = u <;> by_cases h2 : ev.user = u <;>
          simp only [h1, h2, eq_self_iff_true, if_true, if_false] <;>
          by_cases ha : ev.time < m.time <;> by_cases hb : m.time < e.time <;>
          by_cases hc : ev.time < e.time <;>
          (try simp only [ha, hb, hc, if_true, if_false]) <;>
          first | rfl | (exfalso; linarith)

theorem dedupLoop_spec (l : List Event) :
    ∀ (p : List Event) (m : List (Int × Event)),
    keysOf m = firstAppearance (p.map Event.user) →
    (∀ ke ∈ m, ke.2.user = ke.1 ∧ firstMinByUser ke.1 p = some ke.2) →
    keysOf (dedupLoop l m) = firstAppearance ((p ++ l).map Event.user)
    ∧ ∀ ke ∈ dedupLoop l m, ke.2.user = ke.1 ∧ firstMinByUser ke.1 (p ++ l) = some ke.2 := by
  induction l with
  | nil =>
      intro p m hkeys hent
      simp only [dedupLoop, List.append_nil]
      exact ⟨hkeys, hent⟩
  | cons ev rest ih =>
      intro p m hkeys hent
      have hpl : p ++ ev :: rest = (p ++ [ev]) ++ rest := by simp
      rw [hpl]
      have hnd : (keysOf m).Nodup := by
        rw [hkeys]
        exact firstAppearance_nodup _
      rcases hget : alistGet m ev.user with _ | old
      · have hnot : ev.user ∉ keysOf m := (alistGet_eq_none_iff m ev.user).mp hget
        have hnotp : ev.user ∉ p.map Event.user := by
          intro hmem
          apply hnot
          rw [hkeys, mem_firstAppearance]
          exact hmem
        have hset : alistSet m ev.user ev = m ++ [(ev.user, ev)] :=
          alistSet_of_not_mem _ _ _ hnot
        have hstep : dedupLoop (ev :: rest) m = dedupLoop rest (alistSet m ev.user ev) := by
          simp only [dedupLoop, hget]
        rw [hstep]
        apply ih (p ++ [ev]) (alistSet m ev.user ev)
        · rw [hset, keysOf_append, hkeys]
          simp only [List.map_append, List.map_cons, List.map_nil]
          rw [firstAppearance_snoc, if_neg hnotp]
          rfl
        · intro ke hke
          rw [hset] at hke
          rcases List.mem_append.mp hke with hke | hke
          · obtain ⟨hu, hfm⟩ := hent ke hke
            refine ⟨hu, ?_⟩
            rw [firstMinByUser_snoc, if_neg ?_]
            · exact hfm
            · intro heq
              apply hnot
              rw [heq]
              exact List.mem_map.mpr ⟨ke, hke, rfl⟩
          · rw [List.mem_singleton] at hke
            subst hke
            refine ⟨rfl, ?_⟩
            have hnone : firstMinByUser ev.user p = none := by
              rw [firstMinByUser_eq_none]
              intro e' he' heq
              exact hnotp (by rw [← heq]; exact List.mem_map.mpr ⟨e', he', rfl⟩)
            rw [firstMinByUser_snoc, if_pos rfl, hnone]
      · have hkm : ev.user ∈ keysOf m := mem_keys_of_alistGet _ _ _ hget
        have hkmp : ev.user ∈ p.map Event.user := by
          rw [hkeys, mem_firstAppearance] at hkm
          exact hkm
        have hmemOld : (ev.user, old) ∈ m := mem_of_alistGet_eq_some _ _ _ hget
        obtain ⟨holdu, holdfm⟩ := hent _ hmemOld
        have hFA : firstAppearance ((p ++ [ev]).map Event.user)
            = firstAppearance (p.map Event.user) := by
          simp only [List.map_append, List.map_cons, List.map_nil]
          rw [firstAppearance_snoc, if_pos hkmp]
        by_cases ht : ev.time < old.time
        · have hstep : dedupLoop (ev :: rest) m = dedupLoop rest (alistSet m ev.user ev) := by
            simp only [dedupLoop, hget, if_pos ht]
          rw [hstep]
          apply ih (p ++ [ev]) (alistSet m ev.user ev)
          · rw [keysOf_alistSet_of_mem _ _ _ hkm, hkeys, hFA]
          · intro ke hke
            obtain ⟨a, b⟩ := ke
            rcases mem_alistSet_elim m ev.user ev hnd a b hke with ⟨h1, h2⟩ | ⟨h1, h2⟩
            · subst h1
              constructor
              · rw [h2]
              · rw [firstMinByUser_snoc, if_pos rfl, holdfm, h2]
                simp only [ht, if_true]
            · obtain ⟨hu, hfm⟩ := hent _ h1
              refine ⟨hu, ?_⟩
              rw [firstMinByUser_snoc, if_neg (fun hh => h2 hh.symm)]
              exact hfm
        · have hstep : dedupLoop (ev :: rest) m = dedupLoop rest m := by
            simp only [dedupLoop, hget, if_neg ht]
          rw [hstep]
          apply ih (p ++ [ev]) m
          · rw [hkeys, hFA]
          · intro ke hke
            obtain ⟨a, b⟩ := ke
            obtain ⟨hu, hfm⟩ := hent _ hke
            refine ⟨hu, ?_⟩
            by_cases heq : ev.user = a
            · have h1 : alistGet m a = some b := alistGet_of_mem_nodup m a b hnd hke
              have h2 : b = old := by
                rw [← heq, hget] at h1
                exact (Option.some_inj.mp h1).symm
              rw [firstMinByUser_snoc, if_pos heq, hfm]
              show (if ev.time < b.time then some ev else some b) = some b
              rw [h2, if_neg ht]
            · rw [firstMinByUser_snoc, if_neg heq]
              exact hfm

theorem dedupLoop_fresh (l : List Event) :
    ∀ m : List (Int × Event), (∀ e ∈ l, alistGet m e.user = none) →
    (l.map Event.user).Nodup →
    dedupLoop l m = m ++ l.map (fun e => (e.user, e)) := by
  induction l with
  | nil =>
      intro m _ _
      simp [dedupLoop]
  | cons ev rest ih =>
      intro m hfresh hnd
      have hget : alistGet m ev.user = none := hfresh ev (List.mem_cons_self _ _)
      have hnot : ev.user ∉ keysOf m := (alistGet_eq_none_iff m ev.user).mp hget
      simp only [List.map_cons, List.nodup_cons] at hnd
      have hstep : dedupLoop (ev :: rest) m = dedupLoop rest (alistSet m ev.user ev) := by
        simp only [dedupLoop, hget]
      rw [hstep, alistSet_of_not_mem _ _ _ hnot]
      rw [ih (m ++ [(ev.user, ev)]) ?_ hnd.2]
      · simp
      · intro e he
        have hne : e.user ≠ ev.user := by
          intro hh
          exact hnd.1 (hh ▸ List.mem_map.mpr ⟨e, he, rfl⟩)
        have h1 : e.user ∉ keysOf m :=
          (alistGet_eq_none_iff m e.user).mp (hfresh e (List.mem_cons_of_mem _ he))
        rw [alistGet_append_right m [(ev.user, ev)] e.user h1]
        simp [alistGet, Ne.symm hne]

theorem earliest_users_eq_keys (evs : List Event) :
    (earliest_event_by_user evs).map Event.user = keysOf (dedupLoop evs []) := by
  obtain ⟨_, hent⟩ := dedupLoop_spec evs [] [] (by rfl) (by intro ke hke; simp at hke)
  simp only [List.nil_append] at hent
  unfold earliest_event_by_user
  rw [keysOf, List.map_map]
  exact List.map_congr_left (fun ke hke => (hent ke hke).1)

/-- C8: `earliest_event_by_user` is idempotent: a second application
returns the same events in the same order, because the output holds at
most one event per user. -/
theorem earliest_event_by_user_idempotent (evs : List Event) :
    earliest_event_by_user (earliest_event_by_user evs) = earliest_event_by_user evs := by
  obtain ⟨hkeys, _⟩ := dedupLoop_spec evs [] [] (by rfl) (by intro ke hke; simp at hke)
  simp only [List.nil_append] at hkeys
  have hnodup : ((earliest_event_by_user evs).map Event.user).Nodup := by
    rw [earliest_users_eq_keys, hkeys]
    exact firstAppearance_nodup _
  have hfresh : ∀ e ∈ earliest_event_by_user evs,
      alistGet ([] : List (Int × Event)) e.user = none := fun e _ => rfl
  show (dedupLoop (earliest_event_by_user evs) []).map Prod.snd = earliest_event_by_user evs
  rw [dedupLoop_fresh (earliest_event_by_user evs) [] hfresh hnodup]
  simp only [List.nil_append, List.map_map]
  show (earliest_event_by_user evs).map (fun e => e) = earliest_event_by_user evs
  exact List.map_id _

/-- C10: `earliest_event_by_user` is deterministic, even under equal-time
ties: the output lists one event per user in order of each user's first
appearance in the input, every user of the input is represented, and the
retained event of a user is the first event in input order among those
attaining that user's minimum time (equal times never displace an earlier
event). -/
theorem earliest_event_by_user_deterministic (evs : List Event) :
    (earliest_event_by_user evs).map Event.user = firstAppearance (evs.map Event.user)
    ∧ (∀ e ∈ earliest_event_by_user evs, firstMinByUser e.user evs = some e)
    ∧ (∀ u ∈ evs.map Event.user, ∃ e ∈ earliest_event_by_user evs, e.user = u) := by
  obtain ⟨hkeys, hent⟩ := dedupLoop_spec evs [] [] (by rfl) (by intro ke hke; simp at hke)
  simp only [List.nil_append] at hkeys hent
  refine ⟨(earliest_users_eq_keys evs).trans hkeys, ?_, ?_⟩
  · intro e he
    obtain ⟨ke, hke, hsnd⟩ := List.mem_map.mp he
    obtain ⟨hu, hfm⟩ := hent ke hke
    rw [← hsnd]
    show firstMinByUser ke.2.user evs = some ke.2
    rw [hu]
    exact hfm
  · intro u hu
    have hmem : u ∈ (earliest_event_by_user evs).map Event.user := by
      rw [(earliest_users_eq_keys evs).trans hkeys, mem_firstAppearance]
      exact hu
    obtain ⟨e, he, hx⟩ := List.mem_map.mp hmem
    exact ⟨e, he, hx⟩

/-- C10 witness: an input with an equal-time tie for user `1`; the first
tied event (parent `0`) is retained, and users appear in first-appearance
order `[1, 2]`. -/
theorem earliest_event_by_user_deterministic_witness :
    firstMinByUser 1 [⟨1, 0, 5⟩, ⟨2, 0, 1⟩, ⟨1, 9, 5⟩] = some ⟨1, 0, 5⟩
    ∧ (earliest_event_by_user [⟨1, 0, 5⟩, ⟨2, 0, 1⟩, ⟨1, 9, 5⟩]).map Event.user
        = firstAppearance [1, 2, 1] := by
  constructor
  · exact (earliest_event_by_user_deterministic [⟨1, 0, 5⟩, ⟨2, 0, 1⟩, ⟨1, 9, 5⟩]).2.1
      ⟨1, 0, 5⟩ (by decide)
  · exact (earliest_event_by_user_deterministic [⟨1, 0, 5⟩, ⟨2, 0, 1⟩, ⟨1, 9, 5⟩]).1

/-! ### Breadth-first depth computation (claim C1) -/

theorem relaxChildren_spec (current : Int) (dcur : Int) :
    ∀ (cs : List Int) (depths : List (Int × Int)) (queue : List Int),
    alistGet depths current = some dcur → 0 ≤ dcur →
    ∀ d' q', relaxChildren current cs depths queue = some (d', q') →
      keysOf d' = keysOf depths
      ∧ alistGet d' current = some dcur
      ∧ (∀ v e', alistGet d' v = some e' →
          ∃ e, alistGet depths v = some e ∧
            (e' = e ∨ (e' = dcur + 1 ∧ v ∈ cs ∧ v ∈ q' ∧ (e = -1 ∨ dcur + 1 < e))))
      ∧ (∀ v e, alistGet depths v = some e → e ≠ -1 →
          ∃ e', alistGet d' v = some e' ∧ e' ≠ -1 ∧ e' ≤ e)
      ∧ (∀ v ∈ q', v ∈ queue ∨ alistGet d' v = some (dcur + 1))
      ∧ (∀ v ∈ queue, v ∈ q')
      ∧ (∀ v ∈ cs, ∃ e', alistGet d' v = some e' ∧ e' ≠ -1 ∧ e' ≤ dcur + 1) := by
  intro cs
  induction cs with
  | nil =>
      intro depths queue hcur h0 d' q' hrun
      simp only [relaxChildren, Option.some.injEq, Prod.mk.injEq] at hrun
      obtain ⟨hd, hq⟩ := hrun
      subst hd
      subst hq
      refine ⟨rfl, hcur, ?_, ?_, ?_, ?_, ?_⟩
      · intro v e' h
        exact ⟨e', h, Or.inl rfl⟩
      · intro v e h hne
        exact ⟨e, h, hne, le_refl e⟩
      · intro v hv
        exact Or.inl hv
      · intro v hv
        exact hv
      · intro v hv
        exact absurd hv (List.not_mem_nil v)
  | cons child cs' ih =>
      intro depths queue hcur h0 d' q' hrun
      rcases hc : alistGet depths child with _ | dc
      · simp only [relaxChildren, hc] at hrun
        exact Option.noConfusion hrun
      · simp only [relaxChildren, hc, hcur] at hrun
        by_cases hcond : dc = -1 ∨ dcur + 1 < dc
        · rw [if_pos hcond] at hrun
          have hne : child ≠ current := by
            intro hh
            rw [hh, hcur] at hc
            have : dc = dcur := (Option.some_inj.mp hc).symm
            subst this
            omega
          have hcur1 : alistGet (alistSet depths child (dcur + 1)) current = some dcur := by
            rw [alistGet_set_ne _ _ _ _ (Ne.symm hne)]
            exact hcur
          obtain ⟨hkeys, hcur', hR3, hR4, hR5, hR7, hR6⟩ :=
            ih (alistSet depths child (dcur + 1)) (queue ++ [child]) hcur1 h0 d' q' hrun
          have hchildKeys : child ∈ keysOf depths := mem_keys_of_alistGet _ _ _ hc
          have hchildQ : child ∈ q' := hR7 child (by simp)
          have hchildD : alistGet d' child = some (dcur + 1) := by
            obtain ⟨e', he', hene, _⟩ := hR4 child (dcur + 1)
              (alistGet_set_self depths child (dcur + 1)) (by omega)
            obtain ⟨e₁, he₁, hdisj⟩ := hR3 child e' he'
            rw [alistGet_set_self] at he₁
            have he₁' : e₁ = dcur + 1 := Option.some_inj.mp he₁.symm
            rcases hdisj with h | h
            · rw [he', h, he₁']
            · rw [he', h.1]
          refine ⟨hkeys.trans (keysOf_alistSet_of_mem _ _ _ hchildKeys), hcur', ?_, ?_, ?_, ?_, ?_⟩
          · intro v e' h
            obtain ⟨e₁, he₁, hdisj⟩ := hR3 v e' h
            by_cases hv : v = child
            · subst hv
              rw [alistGet_set_self] at he₁
              have he₁' : e₁ = dcur + 1 := Option.some_inj.mp he₁.symm
              refine ⟨dc, hc, Or.inr ⟨?_, List.mem_cons_self _ _, hchildQ, hcond⟩⟩
              rcases hdisj with h' | h'
              · rw [h', he₁']
              · exact h'.1
            · rw [alistGet_set_ne _ _ _ _ hv] at he₁
              refine ⟨e₁, he₁, ?_⟩
              rcases hdisj with h' | h'
              · exact Or.inl h'
              · exact Or.inr ⟨h'.1, List.mem_cons_of_mem _ h'.2.1, h'.2.2⟩
          · intro v e h hne'
            by_cases hv : v = child
            · subst hv
              have hedc : e = dc := by
                rw [hc] at h
                exact (Option.some_inj.mp h).symm
              have hled : dcur + 1 ≤ e := by
                rcases hcond with h' | h'
                · rw [hedc] at hne'
                  exact absurd h' hne'
                · omega
              obtain ⟨e', he', hene, hele⟩ := hR4 v (dcur + 1)
                (alistGet_set_self depths v (dcur + 1)) (by omega)
              exact ⟨e', he', hene, by omega⟩
            · obtain ⟨e', he', hene, hele⟩ := hR4 v e
                (by rw [alistGet_set_ne _ _ _ _ hv]; exact h) hne'
              exact ⟨e', he', hene, hele⟩
          · intro v hv
            rcases hR5 v hv with h | h
            · rcases List.mem_append.mp h with h' | h'
              · exact Or.inl h'
              · rw [List.mem_singleton] at h'
                subst h'
                exact Or.inr hchildD
            · exact Or.inr h
          · intro v hv
            exact hR7 v (List.mem_append.mpr (Or.inl hv))
          · intro v hv
            rcases List.mem_cons.mp hv with hv' | hv'
            · subst hv'
              exact ⟨dcur + 1, hchildD, by omega, le_refl _⟩
            · exact hR6 v hv'
        · rw [if_neg hcond] at hrun
          push_neg at hcond
          obtain ⟨hkeys, hcur', hR3, hR4, hR5, hR7, hR6⟩ :=
            ih depths queue hcur h0 d' q' hrun
          refine ⟨hkeys, hcur', ?_, hR4, hR5, hR7, ?_⟩
          · intro v e' h
            obtain ⟨e₁, he₁, hdisj⟩ := hR3 v e' h
            refine ⟨e₁, he₁, ?_⟩
            rcases hdisj with h' | h'
            · exact Or.inl h'
            · exact Or.inr ⟨h'.1, List.mem_cons_of_mem _ h'.2.1, h'.2.2⟩
          · intro v hv
            rcases List.mem_cons.mp hv with hv' | hv'
            · subst hv'
              obtain ⟨e', he', hene, hele⟩ := hR4 v dc hc hcond.1
              exact ⟨e', he', hene, by omega⟩
            · exact hR6 v hv'

theorem bfsLoop_inv (adj : Adj) (root : Int) :
    ∀ (fuel : Nat) (depths : List (Int × Int)) (queue : List Int)
      (final : List (Int × Int)),
    BfsInv adj root depths queue →
    bfsLoop adj fuel depths queue = some final →
    BfsInv adj root final [] := by
  intro fuel
  induction fuel with
  | zero =>
      intro depths queue final hinv hrun
      cases queue with
      | nil =>
          simp only [bfsLoop, Option.some.injEq] at hrun
          subst hrun
          exact ⟨hinv.keys_eq, hinv.root_zero, hinv.sound,
            fun v hv => absurd hv (List.not_mem_nil v), fun u du h1 h2 _ => hinv.relaxed u du h1 h2
            (List.not_mem_nil u)⟩
      | cons current rest =>
          simp only [bfsLoop] at hrun
          exact Option.noConfusion hrun
  | succ f ihf =>
      intro depths queue final hinv hrun
      cases queue with
      | nil =>
          simp only [bfsLoop, Option.some.injEq] at hrun
          subst hrun
          exact ⟨hinv.keys_eq, hinv.root_zero, hinv.sound,
            fun v hv => absurd hv (List.not_mem_nil v), fun u du h1 h2 _ => hinv.relaxed u du h1 h2
            (List.not_mem_nil u)⟩
      | cons current rest =>
          rw [bfsLoop] at hrun
          rcases hrc : relaxChildren current (childrenOf adj current) depths rest
            with _ | ⟨d', q'⟩
          · rw [hrc] at hrun
            exact Option.noConfusion hrun
          · rw [hrc] at hrun
            obtain ⟨dcur, hdcur, hdne⟩ := hinv.queue_set current (List.mem_cons_self _ _)
            have hd0 : 0 ≤ dcur := by
              rcases hinv.sound current dcur hdcur with h | h
              · exact absurd h hdne
              · exact h.1
            obtain ⟨hkeys, hcur, hR3, hR4, hR5, hR7, hR6⟩ :=
              relaxChildren_spec current dcur (childrenOf adj current) depths rest
                hdcur hd0 d' q' hrc
            refine ihf d' q' final ?_ hrun
            refine ⟨hkeys.trans hinv.keys_eq, ?_, ?_, ?_, ?_⟩
            · obtain ⟨e', he', hene, hele⟩ := hR4 root 0 hinv.root_zero (by omega)
              obtain ⟨e₁, he₁, hdisj⟩ := hR3 root e' he'
              have he₁0 : e₁ = 0 := by
                rw [hinv.root_zero] at he₁
                exact (Option.some_inj.mp he₁).symm
              rcases hdisj with h | h
              · rw [he', h, he₁0]
              · rcases h.2.2.2 with h' | h'
                · omega
                · omega
            · intro v e' h
              obtain ⟨e₁, he₁, hdisj⟩ := hR3 v e' h
              rcases hdisj with h' | h'
              · rw [h']
                exact hinv.sound v e₁ he₁
              · right
                refine ⟨by omega, ?_⟩
                have hcr : ReachN adj root current dcur.toNat := by
                  rcases hinv.sound current dcur hdcur with hh | hh
                  · exact absurd hh hdne
                  · exact hh.2
                have : ReachN adj root v (dcur.toNat + 1) :=
                  ReachN.step hcr h'.2.1
                have htn : e'.toNat = dcur.toNat + 1 := by omega
                rw [htn]
                exact this
            · intro v hv
              rcases hR5 v hv with h | h
              · obtain ⟨e, he, hene⟩ := hinv.queue_set v (List.mem_cons_of_mem _ h)
                obtain ⟨e', he', hene', _⟩ := hR4 v e he hene
                exact ⟨e', he', hene'⟩
              · exact ⟨dcur + 1, h, by omega⟩
            · intro u du hget hne hnotq'
              by_cases hu : u = current
              · subst hu
                have hdu : du = dcur := by
                  rw [hcur] at hget
                  exact (Option.some_inj.mp hget).symm
                intro v hv
                obtain ⟨e', he', hene, hele⟩ := hR6 v hv
                exact ⟨e', he', hene, by omega⟩
              · have hnrest : u ∉ rest := fun hmem => hnotq' (hR7 u hmem)
                have hnq : u ∉ current :: rest := by
                  intro hmem
                  rcases List.mem_cons.mp hmem with h | h
                  · exact hu h
                  · exact hnrest h
                obtain ⟨e₁, he₁, hdisj⟩ := hR3 u du hget
                have hdu : du = e₁ := by
                  rcases hdisj with h | h
                  · exact h
                  · exact absurd h.2.2.1 hnotq'
                intro v hv
                obtain ⟨dv, hdv, hdvne, hdvle⟩ :=
                  hinv.relaxed u e₁ he₁ (by omega) hnq v hv
                obtain ⟨dv', hdv', hdvne', hdvle'⟩ := hR4 v dv hdv hdvne
                exact ⟨dv', hdv', hdvne', by omega⟩

theorem initDepths_all (adj : Adj) (v e : Int)
    (h : alistGet (adj.map (fun p => (p.1, (-1 : Int)))) v = some e) : e = -1 := by
  obtain ⟨q, _, heq⟩ := List.mem_map.mp (mem_of_alistGet_eq_some _ _ _ h)
  exact (congrArg Prod.snd heq).symm

theorem reach_last_step (adj : Adj) (root v : Int) (n : Nat) (h : ReachN adj root v n) :
    v = root ∨ ∃ u, v ∈ childrenOf adj u := by
  cases h with
  | refl => exact Or.inl rfl
  | step hu hchild => exact Or.inr ⟨_, hchild⟩

/-- C1: when the fueled search completes on an adjacency containing the
root, the returned depth map gives the root depth `0`, depth `-1` to every
key unreachable from the root, the shortest walk length to every node at
minimal distance, and every node of recorded depth `d ≥ 1` has a node of
recorded depth `d - 1` whose child set contains it. -/
theorem compute_depths_correct (adj : Adj) (root : Int) (depths : List (Int × Int))
    (hroot : root ∈ keysOf adj)
    (hrun : compute_depths adj root = some depths) :
    alistGet depths root = some 0
    ∧ (∀ v ∈ keysOf adj, ¬ Reaches adj root v → alistGet depths v = some (-1))
    ∧ (∀ v n, ReachN adj root v n → (∀ m, ReachN adj root v m → n ≤ m) →
        alistGet depths v = some (n : Int))
    ∧ (∀ v d, alistGet depths v = some d → 1 ≤ d →
        ∃ u, alistGet depths u = some (d - 1) ∧ v ∈ childrenOf adj u) := by
  obtain ⟨cs, hcs⟩ := alistGet_isSome_of_mem adj root hroot
  simp only [compute_depths, hcs] at hrun
  have hri : root ∈ keysOf (adj.map (fun p => (p.1, (-1 : Int)))) := by
    rw [keysOf_initDepths]
    exact hroot
  have hinv0 : BfsInv adj root
      (alistSet (adj.map (fun p => (p.1, (-1 : Int)))) root 0) [root] := by
    refine ⟨?_, ?_, ?_, ?_, ?_⟩
    · rw [keysOf_alistSet_of_mem _ _ _ hri, keysOf_initDepths]
    · exact alistGet_set_self _ _ _
    · intro v d h
      by_cases hv : v = root
      · subst hv
        rw [alistGet_set_self] at h
        have hd0 : d = 0 := (Option.some_inj.mp h).symm
        subst hd0
        exact Or.inr ⟨le_refl 0, ReachN.refl⟩
      · rw [alistGet_set_ne _ _ _ _ hv] at h
        exact Or.inl (initDepths_all adj v d h)
    · intro v hv
      rw [List.mem_singleton] at hv
      subst hv
      exact ⟨0, alistGet_set_self _ _ _, by omega⟩
    · intro u du hget hne hnotq
      exfalso
      by_cases hu : u = root
      · exact hnotq (by rw [hu]; exact List.mem_singleton.mpr rfl)
      · rw [alistGet_set_ne _ _ _ _ hu] at hget
        exact hne (initDepths_all adj u du hget)
  have hfin : BfsInv adj root depths [] :=
    bfsLoop_inv adj root (bfsFuel adj) _ [root] depths hinv0 hrun
  have hbound : ∀ v n, ReachN adj root v n →
      ∃ d, alistGet depths v = some d ∧ d ≠ -1 ∧ d ≤ (n : Int) := by
    intro v n h
    induction h with
    | refl => exact ⟨0, hfin.root_zero, by omega, by omega⟩
    | step hu hchild ihu =>
        obtain ⟨du, hdu, hdune, hdule⟩ := ihu
        obtain ⟨dv, hdv, hdvne, hdvle⟩ :=
          hfin.relaxed _ du hdu hdune (List.not_mem_nil _) _ hchild
        refine ⟨dv, hdv, hdvne, ?_⟩
        push_cast
        omega
  refine ⟨hfin.root_zero, ?_, ?_, ?_⟩
  · intro v hv hnr
    have hvk : v ∈ keysOf depths := by
      rw [hfin.keys_eq]
      exact hv
    obtain ⟨d, hd⟩ := alistGet_isSome_of_mem depths v hvk
    rcases hfin.sound v d hd with h | h
    · rw [hd, h]
    · exact absurd ⟨d.toNat, h.2⟩ hnr
  · intro v n hreach hmin
    obtain ⟨d, hd, hdne, hdle⟩ := hbound v n hreach
    rcases hfin.sound v d hd with h | h
    · exact absurd h hdne
    · have h1 : n ≤ d.toNat := hmin d.toNat h.2
      have h2 : d = (n : Int) := by omega
      rw [hd, h2]
  · intro v d hd hd1
    rcases hfin.sound v d hd with h | h
    · omega
    · obtain ⟨h0, hreach⟩ := h
      have hn : d.toNat = (d.toNat - 1) + 1 := by omega
      rw [hn] at hreach
      cases hreach with
      | step hu hchild =>
          obtain ⟨du, hdu, hdune, hdule⟩ := hbound _ (d.toNat - 1) hu
          obtain ⟨dv, hdv, hdvne, hdvle⟩ :=
            hfin.relaxed _ du hdu hdune (List.not_mem_nil _) v hchild
          have hdvd : dv = d := by
            rw [hd] at hdv
            exact (Option.some_inj.mp hdv).symm
          have hdud : du = d - 1 := by omega
          exact ⟨_, by rw [← hdud]; exact hdu, hchild⟩

/-- C1 witness: the specification applied to a concrete adjacency with a
chain `0 → 1 → 3` and a disconnected node `9`: the root gets depth `0`,
node `9` gets `-1`, node `3` gets its shortest distance `2`, and node `3`
has a predecessor of recorded depth `1`. -/
theorem compute_depths_correct_witness :
    alistGet [((0 : Int), (0 : Int)), (1, 1), (3, 2), (9, -1)] 0 = some 0
    ∧ alistGet [((0 : Int), (0 : Int)), (1, 1), (3, 2), (9, -1)] 9 = some (-1)
    ∧ alistGet [((0 : Int), (0 : Int)), (1, 1), (3, 2), (9, -1)] 3 = some ((2 : Nat) : Int)
    ∧ ∃ u, alistGet [((0 : Int), (0 : Int)), (1, 1), (3, 2), (9, -1)] u = some (2 - 1)
        ∧ (3 : Int) ∈ childrenOf [(0, [1]), (1, [3]), (3, []), (9, [0])] u := by
  have h := compute_depths_correct [(0, [1]), (1, [3]), (3, []), (9, [0])] 0
    [((0 : Int), (0 : Int)), (1, 1), (3, 2), (9, -1)] (by decide) (by rfl)
  have hpar : ∀ u v : Int, v ∈ childrenOf [(0, [1]), (1, [3]), (3, []), (9, [0])] u →
      (u = 0 ∧ v = 1) ∨ (u = 1 ∧ v = 3) ∨ (u = 9 ∧ v = 0) := by
    intro u v hv
    unfold childrenOf at hv
    rcases hg : alistGet [((0 : Int), [(1 : Int)]), (1, [3]), (3, []), (9, [0])] u
      with _ | cs
    · rw [hg] at hv
      exact absurd hv (List.not_mem_nil _)
    · rw [hg] at hv
      have hmem := mem_of_alistGet_eq_some _ _ _ hg
      simp only [List.mem_cons, List.not_mem_nil, or_false] at hmem
      rcases hmem with h' | h' | h' | h'
      · injection h' with h1 h2
        subst h2
        simp only [Option.getD_some, List.mem_singleton] at hv
        exact Or.inl ⟨h1, hv⟩
      · injection h' with h1 h2
        subst h2
        simp only [Option.getD_some, List.mem_singleton] at hv
        exact Or.inr (Or.inl ⟨h1, hv⟩)
      · injection h' with h1 h2
        subst h2
        simp only [Option.getD_some] at hv
        exact absurd hv (List.not_mem_nil _)
      · injection h' with h1 h2
        subst h2
        simp only [Option.getD_some, List.mem_singleton] at hv
        exact Or.inr (Or.inr ⟨h1, hv⟩)
  refine ⟨h.1, ?_, ?_, h.2.2.2 3 2 (by rfl) (by omega)⟩
  · apply h.2.1 9 (by decide)
    rintro ⟨n, hr⟩
    rcases reach_last_step _ 0 9 n hr with heq | ⟨u, hu⟩
    · exact absurd heq (by decide)
    · rcases hpar u 9 hu with ⟨_, h2⟩ | ⟨_, h2⟩ | ⟨_, h2⟩ <;> exact absurd h2 (by decide)
  · apply h.2.2.1 3 2
    · have s1 : (1 : Int) ∈ childrenOf [(0, [1]), (1, [3]), (3, []), (9, [0])] 0 := by
        decide
      have s2 : (3 : Int) ∈ childrenOf [(0, [1]), (1, [3]), (3, []), (9, [0])] 1 := by
        decide
      exact ReachN.step (ReachN.step ReachN.refl s1) s2
    · intro m hm
      cases hm with
      | step hu hchild =>
          rcases hpar _ 3 hchild with ⟨h1, h2⟩ | ⟨h1, h2⟩ | ⟨h1, h2⟩
          · exact absurd h2 (by decide)
          · subst h1
            cases hu with
            | step hu' hchild' =>
                omega
          · exact absurd h2 (by decide)
